import Mathlib

/-!
Verification of the particle-field background animation implemented in
`src/frontend/src/components/ParticleGrid.jsx`.

The JavaScript source is shallowly embedded: the particle record and the
per-frame simulation step are translated over `ℚ` (every numeric literal of
the source is a decimal constant, translated exactly), the random draws of
the initializer are an explicit stream `ℕ → ℚ` of values in `[0, 1)`, and the
transcendental operations of the renderer (`Math.sin`, `Math.hypot`,
`Math.PI`) are embedded over `ℝ` (with the `Math.PI` double constant a
parameter of the initializer).
-/

/-- Particle category: the source tags each particle `'cyan'` (the Primary
kind of the spec) or `'acid'` (the Accent kind). -/
inductive PType where
  | cyan : PType
  | acid : PType
deriving DecidableEq, Repr, Inhabited

/-- A particle record, translated from the object literal pushed by `init`:
`{x, y, r, vx, vy, life, type}`.  `life` is the spec's `phase`. -/
structure Particle where
  x : ℚ
  y : ℚ
  r : ℚ
  vx : ℚ
  vy : ℚ
  life : ℚ
  type : PType
deriving DecidableEq, Repr, Inhabited

/-- One axis of the wrap-around of `draw`, translated from the sequential
pair of conditionals
`if (v < 0) v = bound; if (v > bound) v = 0` (the second test reads the
value written by the first). -/
def wrapAxis (bound v : ℚ) : ℚ :=
  let v1 := if v < 0 then bound else v
  if v1 > bound then 0 else v1

/-- The per-particle body of `draw`'s update loop, translated statement by
statement: `p.life += 0.004; p.x += p.vx; p.y += p.vy;` then the four wrap
conditionals (x against `canvas.width`, y against `canvas.height`), each
conditional reading the value left by the previous one. -/
def stepParticle (width height : ℚ) (p : Particle) : Particle :=
  let p1 := { p with life := p.life + 0.004 }
  let p2 := { p1 with x := p1.x + p1.vx }
  let p3 := { p2 with y := p2.y + p2.vy }
  let p4 := if p3.x < 0 then { p3 with x := width } else p3
  let p5 := if p4.x > width then { p4 with x := 0 } else p4
  let p6 := if p5.y < 0 then { p5 with y := height } else p5
  if p6.y > height then { p6 with y := 0 } else p6

/-- The sequential wrap conditionals of `stepParticle` act on each axis
independently as `wrapAxis`, and the remaining fields are copied. -/
theorem stepParticle_eq (width height : ℚ) (p : Particle) :
    stepParticle width height p =
      { p with
        life := p.life + 0.004
        x := wrapAxis width (p.x + p.vx)
        y := wrapAxis height (p.y + p.vy) } := by
  unfold stepParticle wrapAxis
  dsimp only
  split_ifs <;> rfl

/-- One Simulation Step of the pool: `particles.forEach(p => ...)` with the
per-particle update body. -/
def step (width height : ℚ) (pool : List Particle) : List Particle :=
  pool.map (stepParticle width height)

/-- `n` Simulation Steps. -/
def stepN (width height : ℚ) (n : ℕ) (pool : List Particle) : List Particle :=
  (step width height)^[n] pool

/-- A one-particle pool sitting at the origin of a `100 × 100` surface with
leftward velocity; its first step crosses the left edge. -/
def cexPool : List Particle :=
  [{ x := 0, y := 0, r := 1, vx := -1, vy := 0, life := 0, type := PType.cyan }]

/-- The wrapped value of an axis always lies in the closed interval
`[0, bound]` when the bound is nonnegative, whatever the incoming value. -/
theorem wrapAxis_mem_closed (bound v : ℚ) (hb : 0 ≤ bound) :
    0 ≤ wrapAxis bound v ∧ wrapAxis bound v ≤ bound := by
  unfold wrapAxis
  by_cases h0 : v < 0
  · simp only [if_pos h0]
    by_cases h1 : bound > bound
    · exact absurd h1 (lt_irrefl bound)
    · simp only [if_neg h1]
      exact ⟨hb, le_refl bound⟩
  · simp only [if_neg h0]
    by_cases h1 : v > bound
    · simp only [if_pos h1]
      exact ⟨le_refl 0, hb⟩
    · simp only [if_neg h1]
      exact ⟨le_of_not_lt h0, le_of_not_lt h1⟩

/-- Stepping preserves membership of both coordinates in the closed box. -/
theorem stepParticle_mem_closed (width height : ℚ) (p : Particle)
    (hw : 0 ≤ width) (hh : 0 ≤ height) :
    0 ≤ (stepParticle width height p).x ∧ (stepParticle width height p).x ≤ width ∧
    0 ≤ (stepParticle width height p).y ∧ (stepParticle width height p).y ≤ height := by
  rw [stepParticle_eq]
  dsimp only
  obtain ⟨hx0, hx1⟩ := wrapAxis_mem_closed width (p.x + p.vx) hw
  obtain ⟨hy0, hy1⟩ := wrapAxis_mem_closed height (p.y + p.vy) hh
  exact ⟨hx0, hx1, hy0, hy1⟩

/-- C1 (counterexample): a pool whose single particle starts inside
`[0, 100) × [0, 100)` leaves the half-open box after one Simulation Step:
the wrap at the left edge writes `x = width` exactly. -/
theorem c1_halfopen_counterexample :
    (∀ p ∈ cexPool, 0 ≤ p.x ∧ p.x < 100 ∧ 0 ≤ p.y ∧ p.y < 100) ∧
    ¬ (∀ p ∈ step 100 100 cexPool, 0 ≤ p.x ∧ p.x < 100 ∧ 0 ≤ p.y ∧ p.y < 100) := by
  constructor
  · simp only [cexPool, List.mem_singleton, forall_eq]
    norm_num
  · simp only [step, cexPool, List.map_cons, List.map_nil, List.mem_singleton, forall_eq]
    norm_num [stepParticle_eq, wrapAxis]

/-- C1 (amended): for a nonnegative surface, after any number of Simulation
Steps every particle of a pool that started inside the half-open box
`[0, width) × [0, height)` has `0 ≤ x ≤ width` and `0 ≤ y ≤ height` — the
CLOSED box; the wrap-around can place a coordinate exactly on the bound. -/
theorem c1_wrap_invariant_closed (width height : ℚ) (n : ℕ)
    (pool : List Particle)
    (hw : 0 ≤ width) (hh : 0 ≤ height)
    (hstart : ∀ p ∈ pool, 0 ≤ p.x ∧ p.x < width ∧ 0 ≤ p.y ∧ p.y < height) :
    ∀ p ∈ stepN width height n pool,
      0 ≤ p.x ∧ p.x ≤ width ∧ 0 ≤ p.y ∧ p.y ≤ height := by
  induction n with
  | zero =>
    intro p hp
    obtain ⟨h1, h2, h3, h4⟩ := hstart p hp
    exact ⟨h1, le_of_lt h2, h3, le_of_lt h4⟩
  | succ k ih =>
    intro p hp
    have hiter : stepN width height (k + 1) pool
        = step width height (stepN width height k pool) := by
      unfold stepN
      rw [Function.iterate_succ_apply']
    rw [hiter] at hp
    obtain ⟨q, _, rfl⟩ := List.mem_map.mp hp
    obtain ⟨ha, hb, hc, hd⟩ := stepParticle_mem_closed width height q hw hh
    exact ⟨ha, hb, hc, hd⟩

/-- C1 (witness for the amended invariant) at the concrete pool `cexPool`
on a `100 × 100` surface after one step, instantiated at the stepped
particle itself. -/
theorem c1_wrap_invariant_closed_witness :
    0 ≤ (stepParticle 100 100
        { x := 0, y := 0, r := 1, vx := -1, vy := 0, life := 0, type := PType.cyan }).x ∧
    (stepParticle 100 100
        { x := 0, y := 0, r := 1, vx := -1, vy := 0, life := 0, type := PType.cyan }).x ≤ 100 ∧
    0 ≤ (stepParticle 100 100
        { x := 0, y := 0, r := 1, vx := -1, vy := 0, life := 0, type := PType.cyan }).y ∧
    (stepParticle 100 100
        { x := 0, y := 0, r := 1, vx := -1, vy := 0, life := 0, type := PType.cyan }).y ≤ 100 :=
  c1_wrap_invariant_closed 100 100 1 cexPool (by decide) (by decide) (by decide)
    (stepParticle 100 100
      { x := 0, y := 0, r := 1, vx := -1, vy := 0, life := 0, type := PType.cyan })
    (by simp [stepN, step, cexPool])

/-- C4: one Simulation Step maps the pool pointwise: each particle's phase
(`life`) grows by exactly `0.004`, each position coordinate gains the
corresponding velocity component and is then wrapped on its own axis
against the current bounds; nothing else changes.  The step is a pure
function of the pool and the bounds. -/
theorem c4_simulation_step (width height : ℚ) (pool : List Particle) :
    step width height pool =
      pool.map (fun p =>
        { p with
          life := p.life + 0.004
          x := wrapAxis width (p.x + p.vx)
          y := wrapAxis height (p.y + p.vy) }) ∧
    (step width height pool).length = pool.length := by
  constructor
  · unfold step
    rw [show stepParticle width height = fun p =>
        { p with
          life := p.life + 0.004
          x := wrapAxis width (p.x + p.vx)
          y := wrapAxis height (p.y + p.vy) }
      from funext fun p => stepParticle_eq width height p]
  · simp [step]

/-- The per-particle step leaves `r` untouched. -/
theorem stepParticle_r (width height : ℚ) (p : Particle) :
    (stepParticle width height p).r = p.r := by
  rw [stepParticle_eq]

/-- The per-particle step leaves `vx` untouched. -/
theorem stepParticle_vx (width height : ℚ) (p : Particle) :
    (stepParticle width height p).vx = p.vx := by
  rw [stepParticle_eq]

/-- The per-particle step leaves `vy` untouched. -/
theorem stepParticle_vy (width height : ℚ) (p : Particle) :
    (stepParticle width height p).vy = p.vy := by
  rw [stepParticle_eq]

/-- The per-particle step leaves `type` untouched. -/
theorem stepParticle_type (width height : ℚ) (p : Particle) :
    (stepParticle width height p).type = p.type := by
  rw [stepParticle_eq]

/-- C8: after any number of Simulation Steps, the pool's radii, velocity
components and kinds read back exactly as at creation: a step mutates only
the position and phase fields. -/
theorem c8_immutable_fields (width height : ℚ) (n : ℕ) (pool : List Particle) :
    (stepN width height n pool).map Particle.r = pool.map Particle.r ∧
    (stepN width height n pool).map Particle.vx = pool.map Particle.vx ∧
    (stepN width height n pool).map Particle.vy = pool.map Particle.vy ∧
    (stepN width height n pool).map Particle.type = pool.map Particle.type := by
  induction n with
  | zero => exact ⟨rfl, rfl, rfl, rfl⟩
  | succ k ih =>
    have hs : stepN width height (k + 1) pool
        = step width height (stepN width height k pool) := by
      unfold stepN
      rw [Function.iterate_succ_apply']
    obtain ⟨ih1, ih2, ih3, ih4⟩ := ih
    rw [hs]
    refine ⟨?_, ?_, ?_, ?_⟩
    · rw [step, List.map_map, show Particle.r ∘ stepParticle width height = Particle.r
        from funext fun p => stepParticle_r width height p, ih1]
    · rw [step, List.map_map, show Particle.vx ∘ stepParticle width height = Particle.vx
        from funext fun p => stepParticle_vx width height p, ih2]
    · rw [step, List.map_map, show Particle.vy ∘ stepParticle width height = Particle.vy
        from funext fun p => stepParticle_vy width height p, ih3]
    · rw [step, List.map_map, show Particle.type ∘ stepParticle width height = Particle.type
        from funext fun p => stepParticle_type width height p, ih4]

/-- C10: the wrap discards the overshoot: a coordinate gone strictly
negative is written to exactly the bound, a nonnegative coordinate strictly
above the bound is written to exactly `0`, an in-range coordinate — the
bound itself included — is left alone; and on the concrete pool `cexPool`
one step lands a particle exactly on `x = width`. -/
theorem c10_wrap_discards_overshoot :
    (∀ bound v : ℚ, v < 0 → wrapAxis bound v = bound) ∧
    (∀ bound v : ℚ, 0 ≤ v → bound < v → wrapAxis bound v = 0) ∧
    (∀ bound v : ℚ, 0 ≤ v → v ≤ bound → wrapAxis bound v = v) ∧
    (∀ bound : ℚ, wrapAxis bound bound = bound) ∧
    (∃ p ∈ step 100 100 cexPool, p.x = 100) := by
  refine ⟨?_, ?_, ?_, ?_, ?_⟩
  · intro bound v h
    unfold wrapAxis
    rw [if_pos h, if_neg (lt_irrefl bound)]
  · intro bound v h0 h1
    unfold wrapAxis
    rw [if_neg (not_lt.mpr h0), if_pos h1]
  · intro bound v h0 h1
    unfold wrapAxis
    rw [if_neg (not_lt.mpr h0), if_neg (not_lt.mpr h1)]
  · intro bound
    unfold wrapAxis
    by_cases h : bound < 0
    · rw [if_pos h, if_neg (lt_irrefl bound)]
    · rw [if_neg h, if_neg (lt_irrefl bound)]
  · refine ⟨stepParticle 100 100
      { x := 0, y := 0, r := 1, vx := -1, vy := 0, life := 0, type := PType.cyan }, ?_, ?_⟩
    · simp [step, cexPool]
    · norm_num [stepParticle_eq, wrapAxis]

/-- C10 (witness): the left-edge crossing at `v = -1` on a bound of `100`
lands on the bound exactly. -/
theorem c10_wrap_discards_overshoot_witness : wrapAxis 100 (-1) = 100 :=
  c10_wrap_discards_overshoot.1 100 (-1) (by decide)

/-- One particle as pushed by `init`, translated field by field from the
object literal.  `draw k` is the value of the `k`-th `Math.random()` call of
this particle (seven calls, in source order: x, y, r, vx, vy, life, type),
and `piVal` stands for the `Math.PI` constant. -/
def mkParticle (width height piVal : ℚ) (draw : ℕ → ℚ) : Particle :=
  { x := draw 0 * width
    y := draw 1 * height
    r := draw 2 * 1.4 + 0.2
    vx := (draw 3 - 0.5) * 0.2
    vy := (draw 4 - 0.5) * 0.2
    life := draw 5 * piVal * 2
    type := if draw 6 > 0.4 then PType.cyan else PType.acid }

/-- The loop bound of `init`:
`Math.floor((canvas.width * canvas.height) / 16000)` (a negative floor runs
the `for` loop zero times). -/
def particleCount (width height : ℚ) : ℕ :=
  (⌊width * height / 16000⌋).toNat

/-- The `init` closure: empties the pool and pushes `particleCount` fresh
particles, the `i`-th one consuming the next seven values of the random
stream `rand`. -/
def init (width height piVal : ℚ) (rand : ℕ → ℚ) : List Particle :=
  (List.range (particleCount width height)).map fun i =>
    mkParticle width height piVal fun k => rand (7 * i + k)

/-- The `resize` closure: updates the surface bounds and calls `init`; the
previous pool (`oldPool`) is discarded unconditionally. -/
def resize (width height piVal : ℚ) (rand : ℕ → ℚ)
    (oldPool : List Particle) : List Particle :=
  init width height piVal rand

/-- The `i`-th particle of a fresh pool is built from draws `7i … 7i+6`. -/
theorem init_get (width height piVal : ℚ) (rand : ℕ → ℚ) (i : ℕ)
    (h : i < (init width height piVal rand).length) :
    (init width height piVal rand).get ⟨i, h⟩
      = mkParticle width height piVal fun k => rand (7 * i + k) := by
  have h' : i < particleCount width height := by
    simpa [init] using h
  simp [init, List.get_eq_getElem]

/-- C3: after any `init` or `resize` the pool holds exactly
`particleCount` particles; for nonnegative dimensions that count is exactly
`⌊width * height / 16000⌋`, and whenever `width * height < 16000` (zero
dimensions included) the pool is empty. -/
theorem c3_pool_size (width height piVal : ℚ) (rand : ℕ → ℚ)
    (oldPool : List Particle) :
    (init width height piVal rand).length = particleCount width height ∧
    (resize width height piVal rand oldPool).length = particleCount width height ∧
    (0 ≤ width → 0 ≤ height →
      ((init width height piVal rand).length : ℤ) = ⌊width * height / 16000⌋) ∧
    (width * height < 16000 → (init width height piVal rand).length = 0) := by
  have hlen : (init width height piVal rand).length = particleCount width height := by
    simp [init]
  refine ⟨hlen, hlen, ?_, ?_⟩
  · intro hw hh
    rw [hlen]
    unfold particleCount
    rw [Int.toNat_of_nonneg]
    exact Int.floor_nonneg.mpr (div_nonneg (mul_nonneg hw hh) (by norm_num))
  · intro hlt
    rw [hlen]
    unfold particleCount
    have h1 : width * height / 16000 < 1 := (div_lt_one (by norm_num)).mpr hlt
    have h2 : ⌊width * height / 16000⌋ < (1 : ℤ) := Int.floor_lt.mpr (by exact_mod_cast h1)
    exact Int.toNat_eq_zero.mpr (by omega)

/-- C3 (witness): a `400 × 400` surface yields exactly
`⌊160000 / 16000⌋ = 10` particles. -/
theorem c3_pool_size_witness :
    ((init 400 400 3 (fun _ => 1/2)).length : ℤ) = ⌊(400 : ℚ) * 400 / 16000⌋ :=
  (c3_pool_size 400 400 3 (fun _ => 1/2) []).2.2.1 (by norm_num) (by norm_num)

/-- C6: `resize` ignores the pool it is given: it returns the fresh
`init` pool whatever was there before — in particular also when the
previous pool was itself a fresh pool of the very same dimensions — and
its size follows the count formula. -/
theorem c6_resize_discards (width height piVal : ℚ) (rand : ℕ → ℚ)
    (oldPool otherPool : List Particle) :
    resize width height piVal rand oldPool = init width height piVal rand ∧
    resize width height piVal rand oldPool = resize width height piVal rand otherPool ∧
    resize width height piVal rand (init width height piVal rand)
      = init width height piVal rand ∧
    (resize width height piVal rand oldPool).length = particleCount width height := by
  refine ⟨rfl, rfl, rfl, ?_⟩
  simp [resize, init]

/-- C9: whenever every random draw lies in `[0, 1)` and the `Math.PI`
constant is positive, every particle of a fresh pool has radius in
`[0.2, 1.6)`, velocity components in `[-0.1, 0.1)`, phase in
`[0, 2 · piVal)` — hence below `2π` whenever `piVal ≤ π` — and a kind that
is `cyan` (Primary) exactly when its kind draw exceeds `0.4`, `acid`
(Accent) otherwise. -/
theorem c9_creation_ranges (width height piVal : ℚ) (rand : ℕ → ℚ)
    (hrand : ∀ n, 0 ≤ rand n ∧ rand n < 1) (hpi : 0 < piVal) (i : ℕ)
    (h : i < (init width height piVal rand).length) :
    (0.2 ≤ ((init width height piVal rand).get ⟨i, h⟩).r ∧
      ((init width height piVal rand).get ⟨i, h⟩).r < 1.6) ∧
    (-0.1 ≤ ((init width height piVal rand).get ⟨i, h⟩).vx ∧
      ((init width height piVal rand).get ⟨i, h⟩).vx < 0.1) ∧
    (-0.1 ≤ ((init width height piVal rand).get ⟨i, h⟩).vy ∧
      ((init width height piVal rand).get ⟨i, h⟩).vy < 0.1) ∧
    (0 ≤ ((init width height piVal rand).get ⟨i, h⟩).life ∧
      ((init width height piVal rand).get ⟨i, h⟩).life < 2 * piVal) ∧
    ((piVal : ℝ) ≤ Real.pi →
      ((((init width height piVal rand).get ⟨i, h⟩).life : ℝ) < 2 * Real.pi)) ∧
    (((init width height piVal rand).get ⟨i, h⟩).type = PType.cyan ∨
      ((init width height piVal rand).get ⟨i, h⟩).type = PType.acid) ∧
    (((init width height piVal rand).get ⟨i, h⟩).type = PType.cyan ↔
      0.4 < rand (7 * i + 6)) := by
  rw [init_get]
  unfold mkParticle
  dsimp only
  obtain ⟨h2a, h2b⟩ := hrand (7 * i + 2)
  obtain ⟨h3a, h3b⟩ := hrand (7 * i + 3)
  obtain ⟨h4a, h4b⟩ := hrand (7 * i + 4)
  obtain ⟨h5a, h5b⟩ := hrand (7 * i + 5)
  have hlife0 : (0 : ℚ) ≤ rand (7 * i + 5) * piVal * 2 :=
    mul_nonneg (mul_nonneg h5a hpi.le) (by norm_num)
  have hlife1 : rand (7 * i + 5) * piVal * 2 < 2 * piVal := by nlinarith
  refine ⟨⟨by nlinarith, by nlinarith⟩, ⟨by nlinarith, by nlinarith⟩,
    ⟨by nlinarith, by nlinarith⟩, ⟨hlife0, hlife1⟩, ?_, ?_, ?_⟩
  · intro hple
    have hcast : ((rand (7 * i + 5) * piVal * 2 : ℚ) : ℝ) < 2 * (piVal : ℝ) := by
      exact_mod_cast hlife1
    linarith
  · by_cases hc : rand (7 * i + 6) > 0.4
    · exact Or.inl (if_pos hc)
    · exact Or.inr (if_neg hc)
  · constructor
    · intro htype
      by_contra hc
      rw [if_neg hc] at htype
      exact PType.noConfusion htype
    · intro hc
      exact if_pos hc

/-- C9 (witness): the first particle of a `400 × 400` pool built from the
constant random stream `1/2` and `piVal = 3.141592` satisfies the radius
range conjunct. -/
theorem c9_creation_ranges_witness :
    0.2 ≤ ((init 400 400 3.141592 (fun _ => 1/2)).get
        ⟨0, by norm_num [init, particleCount]⟩).r ∧
      ((init 400 400 3.141592 (fun _ => 1/2)).get
        ⟨0, by norm_num [init, particleCount]⟩).r < 1.6 :=
  (c9_creation_ranges 400 400 3.141592 (fun _ => 1/2)
    (fun _ => ⟨by norm_num, by norm_num⟩) (by norm_num) 0
    (by norm_num [init, particleCount])).1

/-- The fill alpha painted by `draw` for one particle:
`alpha = (Math.sin(p.life) * 0.4 + 0.5) * 0.6`, used as is for a `'cyan'`
particle and further scaled by `0.7` for an `'acid'` one (the two
`rgba(...)` fill styles). -/
noncomputable def fillAlpha (p : Particle) : ℝ :=
  let alpha := (Real.sin (p.life : ℝ) * 0.4 + 0.5) * 0.6
  match p.type with
  | PType.cyan => alpha
  | PType.acid => alpha * 0.7

/-- Clamp of a value to `[0, 1]`, as used by the spec's alpha formula. -/
noncomputable def clampUnit (v : ℝ) : ℝ := max 0 (min 1 v)

/-- The spec's per-kind base opacity: `0.6` for Primary (`cyan`), `0.42`
for Accent (`acid`). -/
noncomputable def baseOpacity : PType → ℝ
  | PType.cyan => 0.6
  | PType.acid => 0.42

/-- The spec's fill alpha formula:
`clamp(sin phase * 0.4 + 0.5, 0, 1) * baseOpacity`. -/
noncomputable def specFillAlpha (p : Particle) : ℝ :=
  clampUnit (Real.sin (p.life : ℝ) * 0.4 + 0.5) * baseOpacity p.type

/-- C5: the renderer's fill alpha coincides with the spec formula
`clamp(sin phase * 0.4 + 0.5, 0, 1) * baseOpacity` for both kinds (the
clamp is inert because the sine term stays inside `[0.1, 0.9]`), and an
`acid` (Accent) particle is painted at exactly `70%` of the alpha of a
`cyan` (Primary) particle with the same phase. -/
theorem c5_fill_alpha (p : Particle) :
    fillAlpha p = specFillAlpha p ∧
    fillAlpha { p with type := PType.acid }
      = 0.7 * fillAlpha { p with type := PType.cyan } := by
  obtain ⟨x, y, r, vx, vy, life, ty⟩ := p
  have hs1 : Real.sin (life : ℝ) ≤ 1 := Real.sin_le_one _
  have hs2 : -1 ≤ Real.sin (life : ℝ) := Real.neg_one_le_sin _
  have hclamp : clampUnit (Real.sin (life : ℝ) * 0.4 + 0.5)
      = Real.sin (life : ℝ) * 0.4 + 0.5 := by
    unfold clampUnit
    rw [min_eq_right (by nlinarith), max_eq_right (by nlinarith)]
  constructor
  · cases ty
    · unfold fillAlpha specFillAlpha baseOpacity
      dsimp only
      rw [hclamp]
    · unfold fillAlpha specFillAlpha baseOpacity
      dsimp only
      rw [hclamp]
      ring
  · unfold fillAlpha
    dsimp only
    ring

/-- The distance computed by the connection loop:
`Math.hypot(particles[i].x - particles[j].x, particles[i].y - particles[j].y)`. -/
noncomputable def particleDist (p q : Particle) : ℝ :=
  Real.sqrt (((p.x : ℝ) - (q.x : ℝ)) ^ 2 + ((p.y : ℝ) - (q.y : ℝ)) ^ 2)

/-- The stroke alpha of a connection line: `0.07 * (1 - dist / 90)`. -/
noncomputable def connAlpha (d : ℝ) : ℝ := 0.07 * (1 - d / 90)

/-- The body of the inner connection loop for one pair: a line is stroked
with alpha `connAlpha dist` exactly under the `dist < 90` guard. -/
noncomputable def pairConnection (p q : Particle) : Option ℝ :=
  if particleDist p q < 90 then some (connAlpha (particleDist p q)) else none

/-- The connection lines emitted by one frame: the double loop
`for i in [0, n); for j in [i+1, n)` over the pool, each emitted descriptor
carrying its pair of indices and its stroke alpha. -/
noncomputable def connections (pool : List Particle) : List (ℕ × ℕ × ℝ) :=
  (List.range pool.length).flatMap fun i =>
    (List.range' (i + 1) (pool.length - (i + 1))).filterMap fun j =>
      (pairConnection (pool.getD i default) (pool.getD j default)).map
        fun a => (i, j, a)

/-- `pairConnection` emits exactly under the `dist < 90` guard, with the
`connAlpha` value. -/
theorem pairConnection_eq_some (p q : Particle) (a : ℝ) :
    pairConnection p q = some a ↔
      particleDist p q < 90 ∧ a = connAlpha (particleDist p q) := by
  unfold pairConnection
  by_cases h : particleDist p q < 90
  · rw [if_pos h]
    simp [h, eq_comm]
  · rw [if_neg h]
    simp [h]

/-- Membership in the emitted connection list characterized by the pair of
indices and the guard. -/
theorem mem_connections (pool : List Particle) (i j : ℕ) (a : ℝ) :
    (i, j, a) ∈ connections pool ↔
      i < j ∧ j < pool.length ∧
        pairConnection (pool.getD i default) (pool.getD j default) = some a := by
  unfold connections
  constructor
  · intro hmem
    rw [List.mem_flatMap] at hmem
    obtain ⟨i', hi', hmem2⟩ := hmem
    rw [List.mem_range] at hi'
    rw [List.mem_filterMap] at hmem2
    obtain ⟨j', hj', heq⟩ := hmem2
    rw [List.mem_range'_1] at hj'
    rw [Option.map_eq_some'] at heq
    obtain ⟨a', ha', heq2⟩ := heq
    rw [Prod.ext_iff] at heq2
    obtain ⟨h1, heq3⟩ := heq2
    rw [Prod.ext_iff] at heq3
    obtain ⟨h2, h3⟩ := heq3
    dsimp at h1 h2 h3
    subst h1
    subst h2
    subst h3
    exact ⟨by omega, by omega, ha'⟩
  · rintro ⟨hij, hj, hpc⟩
    rw [List.mem_flatMap]
    refine ⟨i, ?_, ?_⟩
    · rw [List.mem_range]
      omega
    · rw [List.mem_filterMap]
      refine ⟨j, ?_, ?_⟩
      · rw [List.mem_range'_1]
        omega
      · rw [Option.map_eq_some']
        exact ⟨a, hpc, rfl⟩

/-- C2: for an ordered pair `i < j` of pool indices with Euclidean distance
`d` between the two particles, a connection carrying those indices is
emitted iff `d < 90`; every emitted connection for the pair carries the
stroke alpha `0.07 * (1 - d / 90)`; and that alpha is strictly decreasing
in the distance over `[0, 90)`. -/
theorem c2_connection_eval (pool : List Particle) (i j : ℕ)
    (hi : i < pool.length) (hj : j < pool.length) (hij : i < j) :
    ((∃ a, (i, j, a) ∈ connections pool) ↔
      particleDist (pool.get ⟨i, hi⟩) (pool.get ⟨j, hj⟩) < 90) ∧
    (∀ a, (i, j, a) ∈ connections pool →
      a = connAlpha (particleDist (pool.get ⟨i, hi⟩) (pool.get ⟨j, hj⟩))) ∧
    (∀ d1 d2 : ℝ, 0 ≤ d1 → d1 < d2 → d2 < 90 → connAlpha d2 < connAlpha d1) := by
  have hgi : pool.getD i default = pool.get ⟨i, hi⟩ := by
    rw [List.getD_eq_getElem?_getD, List.getElem?_eq_getElem hi]
    rfl
  have hgj : pool.getD j default = pool.get ⟨j, hj⟩ := by
    rw [List.getD_eq_getElem?_getD, List.getElem?_eq_getElem hj]
    rfl
  refine ⟨⟨?_, ?_⟩, ?_, ?_⟩
  · rintro ⟨a, ha⟩
    rw [mem_connections] at ha
    obtain ⟨-, -, hpc⟩ := ha
    rw [hgi, hgj] at hpc
    exact ((pairConnection_eq_some _ _ _).mp hpc).1
  · intro hd
    refine ⟨connAlpha (particleDist (pool.get ⟨i, hi⟩) (pool.get ⟨j, hj⟩)), ?_⟩
    rw [mem_connections]
    refine ⟨hij, hj, ?_⟩
    rw [hgi, hgj]
    exact (pairConnection_eq_some _ _ _).mpr ⟨hd, rfl⟩
  · intro a ha
    rw [mem_connections] at ha
    obtain ⟨-, -, hpc⟩ := ha
    rw [hgi, hgj] at hpc
    exact ((pairConnection_eq_some _ _ _).mp hpc).2
  · intro d1 d2 h0 h12 h290
    unfold connAlpha
    linarith

/-- A two-particle pool at `(0, 0)` and `(30, 40)`: distance exactly 50. -/
def connPool : List Particle :=
  [{ x := 0, y := 0, r := 1, vx := 0, vy := 0, life := 0, type := PType.cyan },
   { x := 30, y := 40, r := 1, vx := 0, vy := 0, life := 0, type := PType.acid }]

/-- C2 (witness): the emission criterion instantiated at the concrete
two-particle pool `connPool` and the pair `(0, 1)`. -/
theorem c2_connection_eval_witness :
    (∃ a, ((0 : ℕ), (1 : ℕ), a) ∈ connections connPool) ↔
      particleDist (connPool.get ⟨0, by decide⟩) (connPool.get ⟨1, by decide⟩) < 90 :=
  (c2_connection_eval connPool 0 1 (by decide) (by decide) (by decide)).1

/-- The state owned by the mounted component: the flag of a pending frame
registration (`animId` with a live `requestAnimationFrame` callback), the
particle pool, the surface bounds, and the number of frames painted so far
onto the surface. -/
structure SchedState where
  pending : Bool
  pool : List Particle
  width : ℚ
  height : ℚ
  frames : ℕ
deriving Repr

/-- One tick of the host frame scheduler.  When a registration is pending
the callback `draw` runs: it steps the pool, paints one frame and
re-registers itself (`animId = requestAnimationFrame(draw)`); with no
pending registration nothing runs and nothing is mutated. -/
def frameTick (s : SchedState) : SchedState :=
  if s.pending then
    { s with pool := step s.width s.height s.pool, frames := s.frames + 1 }
  else s

/-- The cleanup returned by the effect: `cancelAnimationFrame(animId)`
withdraws the pending registration (a no-op when none is pending). -/
def stop (s : SchedState) : SchedState := { s with pending := false }

/-- C7: after `stop` no further callback fires — any number of scheduler
ticks leaves the pool and the painted-frame count (hence the surface)
untouched — `stop` is idempotent, and on a state with no pending
registration it is a total no-op. -/
theorem c7_stop_cancels (s : SchedState) (n : ℕ) :
    frameTick^[n] (stop s) = stop s ∧
    stop (stop s) = stop s ∧
    (s.pending = false → stop s = s) := by
  refine ⟨?_, rfl, ?_⟩
  · induction n with
    | zero => rfl
    | succ k ih =>
      rw [Function.iterate_succ_apply', ih]
      simp [frameTick, stop]
  · intro hp
    obtain ⟨pending, pool, w, h, fr⟩ := s
    dsimp at hp
    subst hp
    rfl

/-- An idle component state: nothing pending. -/
def idleSched : SchedState :=
  { pending := false, pool := cexPool, width := 100, height := 100, frames := 0 }

/-- C7 (witness): `stop` on the concrete idle state is a no-op, via the
third conjunct of the cancellation theorem. -/
theorem c7_stop_cancels_witness : stop idleSched = idleSched :=
  (c7_stop_cancels idleSched 3).2.2 rfl
